import Mathlib

/-!
Verification of the streaming group-by-aggregation scripts (mapper/reducer
pairs over tab-separated sales records).

Lines and strings are modelled as `List Char`; Python floats are modelled as
exact rationals (`ℚ`), Python ints as `ℤ`.  A reducer run returns
`Except Unit …`: `.error ()` models an uncaught Python exception aborting the
process, `.ok results` models normal termination with the emitted
`(key, value)` lines.
-/

/-- A raw input line, as a list of characters. -/
abbrev Line := List Char

/-- A grouping key, as a list of characters. -/
abbrev Key := List Char

/-- Characters removed by Python's `str.strip()`. -/
def pyWS (c : Char) : Bool :=
  c = ' ' || c = '\t' || c = '\n' || c = '\r' || c = '\x0b' || c = '\x0c'

/-- Remove trailing characters satisfying `pyWS` (the tail half of `str.strip()`). -/
def stripEnd : List Char → List Char
  | [] => []
  | c :: rest =>
    match stripEnd rest with
    | [] => if pyWS c then [] else [c]
    | r => c :: r

/-- Python's `str.strip()`: drop leading and trailing whitespace. -/
def pyStrip (cs : List Char) : List Char :=
  stripEnd (cs.dropWhile pyWS)

/-- Python's `s.split("\t")`: split at every tab; never returns `[]`. -/
def splitTab : List Char → List (List Char)
  | [] => [[]]
  | c :: cs =>
    if c = '\t' then [] :: splitTab cs
    else
      match splitTab cs with
      | [] => [[c]]
      | f :: fs => (c :: f) :: fs

/-- Python's `s.split(" ")`: split at every single space character. -/
def splitSpace : List Char → List (List Char)
  | [] => [[]]
  | c :: cs =>
    if c = ' ' then [] :: splitSpace cs
    else
      match splitSpace cs with
      | [] => [[c]]
      | f :: fs => (c :: f) :: fs

/-- Shorthand turning a string literal into its character list. -/
def cl (s : String) : List Char := s.data

/-- Value of a run of decimal digits. -/
def decVal (cs : List Char) : ℕ :=
  cs.foldl (fun a c => 10 * a + (c.toNat - 48)) 0

/-- Unsigned part of Python's `float()` on a decimal literal: digits with an
optional single `.`; at least one digit required. -/
def parseUFloat (cs : List Char) : Option ℚ :=
  let ip := cs.takeWhile (fun c => !(c == '.'))
  let rest := cs.dropWhile (fun c => !(c == '.'))
  match rest with
  | [] =>
    if ip ≠ [] ∧ ip.all Char.isDigit then some (decVal ip) else none
  | _ :: frac =>
    if (ip ++ frac) ≠ [] ∧ ip.all Char.isDigit ∧ frac.all Char.isDigit then
      some ((decVal ip : ℚ) + (decVal frac : ℚ) / (10 : ℚ) ^ frac.length)
    else none

/-- Python's `float(s)`, modelled on optionally signed plain decimal literals
with surrounding whitespace allowed; exact rational arithmetic stands in for
IEEE floats (scientific notation, `inf`/`nan` and digit underscores are
outside the model). `none` models a raised `ValueError`. -/
def parseFloat (s : List Char) : Option ℚ :=
  match pyStrip s with
  | '+' :: cs => parseUFloat cs
  | '-' :: cs => (parseUFloat cs).map Neg.neg
  | cs => parseUFloat cs

/-- Python's `int(s)`: optionally signed digit string with surrounding
whitespace allowed. `none` models a raised `ValueError`. -/
def parseInt (s : List Char) : Option ℤ :=
  let core : List Char → Option ℤ := fun cs =>
    if cs ≠ [] ∧ cs.all Char.isDigit then some (decVal cs) else none
  match pyStrip s with
  | '+' :: cs => core cs
  | '-' :: cs => (core cs).map Neg.neg
  | cs => core cs

/-! ## The Aggregator scripts (reducers)

Each reducer keeps the Python globals `oldKey` (None or a string) and a
numeric accumulator.  Python's truthiness test `if oldKey` and the comparison
`oldKey != thisKey` are modelled exactly. -/

/-- Python truthiness of `oldKey` (`None` and the empty string are falsy). -/
def pyTruthy : Option Key → Bool
  | none => false
  | some k => !(k == [])

/-- Python `oldKey != thisKey` where `oldKey` may be `None`. -/
def pyNeqK : Option Key → Key → Bool
  | none, _ => true
  | some k, k2 => !(k == k2)

/-- Loop body of `exercise3/reducer.py` (max sale per key) on an already
parsed pair, returning the new `(oldKey, maxSale)` state and printed lines. -/
def pairStepMax (st : Option Key × ℚ) (p : Key × ℚ) :
    (Option Key × ℚ) × List (Key × ℚ) :=
  let oldKey := st.1; let maxSale := st.2
  let thisKey := p.1; let thisSale := p.2
  if pyTruthy oldKey && pyNeqK oldKey thisKey then
    ((some thisKey, thisSale), [(oldKey.getD [], maxSale)])
  else
    ((some thisKey, if thisSale > maxSale then thisSale else maxSale), [])

/-- Loop body of `exercise4/reducer.py` (count per key) on a parsed pair. -/
def pairStepCount (st : Option Key × ℤ) (p : Key × ℤ) :
    (Option Key × ℤ) × List (Key × ℤ) :=
  let oldKey := st.1; let count := st.2
  let thisKey := p.1; let thisCount := p.2
  if pyTruthy oldKey && pyNeqK oldKey thisKey then
    ((some thisKey, thisCount), [(oldKey.getD [], count)])
  else
    ((some thisKey, count + thisCount), [])

/-- Loop body of `exercise5/reducer.py` (sum per key) on a parsed pair: on a
key change it prints, resets the total to 0, and then unconditionally adds. -/
def pairStepSum (st : Option Key × ℚ) (p : Key × ℚ) :
    (Option Key × ℚ) × List (Key × ℚ) :=
  let oldKey := st.1; let salesTotal := st.2
  let thisKey := p.1; let thisSale := p.2
  if pyTruthy oldKey && pyNeqK oldKey thisKey then
    ((some thisKey, 0 + thisSale), [(oldKey.getD [], salesTotal)])
  else
    ((some thisKey, salesTotal + thisSale), [])

/-- Full reducer loop body on a raw line: `line.strip().split("\t")`, the
two-field guard, numeric parsing of the measure (an unparseable measure is an
uncaught `ValueError`, aborting the run), then the parsed-pair body. -/
def mkLstep {μ α : Type} (parse : List Char → Option μ)
    (pstep : (Option Key × α) → (Key × μ) → (Option Key × α) × List (Key × α))
    (st : Option Key × α) (line : Line) :
    Except Unit ((Option Key × α) × List (Key × α)) :=
  match splitTab (pyStrip line) with
  | [thisKey, measure] =>
    match parse measure with
    | none => .error ()
    | some v => .ok (pstep st (thisKey, v))
  | _ => .ok (st, [])

/-- Line-level loop body of `exercise3/reducer.py`. -/
def ex3lstep : (Option Key × ℚ) → Line → Except Unit ((Option Key × ℚ) × List (Key × ℚ)) :=
  mkLstep parseFloat pairStepMax

/-- Line-level loop body of `exercise4/reducer.py` (`int(thisCount)`). -/
def ex4lstep : (Option Key × ℤ) → Line → Except Unit ((Option Key × ℤ) × List (Key × ℤ)) :=
  mkLstep parseInt pairStepCount

/-- Line-level loop body of `exercise5/reducer.py`. -/
def ex5lstep : (Option Key × ℚ) → Line → Except Unit ((Option Key × ℚ) × List (Key × ℚ)) :=
  mkLstep parseFloat pairStepSum

/-- Run a fallible loop body over all input lines, collecting printed output
in order; the first uncaught exception aborts the whole run. -/
def loopE {σ ω : Type} (step : σ → Line → Except Unit (σ × List ω)) :
    σ → List Line → Except Unit (σ × List ω)
  | st, [] => .ok (st, [])
  | st, l :: ls =>
    match step st l with
    | .error e => .error e
    | .ok r =>
      match loopE step r.1 ls with
      | .error e => .error e
      | .ok r2 => .ok (r2.1, r.2 ++ r2.2)

/-- Run an infallible parsed-pair loop body over a pair stream. -/
def loopP {σ π ω : Type} (step : σ → π → σ × List ω) :
    σ → List π → σ × List ω
  | st, [] => (st, [])
  | st, p :: ps =>
    let r := step st p
    let r2 := loopP step r.1 ps
    (r2.1, r.2 ++ r2.2)

/-- Final `if oldKey != None: print(oldKey, acc)` of the grouped reducers. -/
def flushSt {α : Type} (st : Option Key × α) : List (Key × α) :=
  match st.1 with
  | none => []
  | some k => [(k, st.2)]

/-- Line-level run with the final flush appended. -/
def runEflush {α : Type}
    (step : (Option Key × α) → Line → Except Unit ((Option Key × α) × List (Key × α)))
    (st : Option Key × α) (lines : List Line) : Except Unit (List (Key × α)) :=
  (loopE step st lines).map (fun r => r.2 ++ flushSt r.1)

/-- Pair-level run with the final flush appended. -/
def runPflush {μ α : Type}
    (step : (Option Key × α) → (Key × μ) → (Option Key × α) × List (Key × α))
    (st : Option Key × α) (ps : List (Key × μ)) : List (Key × α) :=
  let r := loopP step st ps
  r.2 ++ flushSt r.1

/-- `exercise3/reducer.py`: whole script on its input lines
(`maxSale = -1`, `oldKey = None` initially). -/
def ex3run (lines : List Line) : Except Unit (List (Key × ℚ)) :=
  runEflush ex3lstep (none, -1) lines

/-- `exercise4/reducer.py`: whole script (`count = 0`, `oldKey = None`). -/
def ex4run (lines : List Line) : Except Unit (List (Key × ℤ)) :=
  runEflush ex4lstep (none, 0) lines

/-- `exercise5/reducer.py`: whole script (`salesTotal = 0`, `oldKey = None`). -/
def ex5run (lines : List Line) : Except Unit (List (Key × ℚ)) :=
  runEflush ex5lstep (none, 0) lines

/-- `exercise3/reducer.py` on an already parsed pair stream. -/
def ex3runP (ps : List (Key × ℚ)) : List (Key × ℚ) :=
  runPflush pairStepMax (none, -1) ps

/-- `exercise4/reducer.py` on an already parsed pair stream. -/
def ex4runP (ps : List (Key × ℤ)) : List (Key × ℤ) :=
  runPflush pairStepCount (none, 0) ps

/-- `exercise5/reducer.py` on an already parsed pair stream. -/
def ex5runP (ps : List (Key × ℚ)) : List (Key × ℚ) :=
  runPflush pairStepSum (none, 0) ps

/-- Loop body of `exercise6/reducer.py` (grand total): two-field guard, then
`total += float(data_mapped[1])`; never prints inside the loop. -/
def ex6lstep (total : ℚ) (line : Line) : Except Unit (ℚ × List (Key × ℚ)) :=
  match splitTab (pyStrip line) with
  | [_k, measure] =>
    match parseFloat measure with
    | none => .error ()
    | some v => .ok (total + v, [])
  | _ => .ok (total, [])

/-- `exercise6/reducer.py`: whole script; after the loop it unconditionally
prints `"TOTAL_ABSOLUTO" + "\t" + str(total)`. -/
def ex6run (lines : List Line) : Except Unit (List (Key × ℚ)) :=
  (loopE ex6lstep 0 lines).map (fun r => r.2 ++ [(cl "TOTAL_ABSOLUTO", r.1)])

/-! ## The Extractor script of exercise 5 (time-bucket mapper) -/

/-- One iteration of `exercise5/mapper.py`: strip, skip empty lines, the
five-field guard, `hour = datetime.split(" ")[1].split(":")[0]` (an
`IndexError` from `[1]` is *not* caught by `except ValueError` and aborts the
run), `float(cost)` (a `ValueError` is caught: skip), then
`print(hour + "\t" + cost)`. -/
def ex5mapStep (line : Line) : Except Unit (List (Key × List Char)) :=
  let l := pyStrip line
  if l = [] then .ok []
  else
    match splitTab l with
    | [dt, _store, _item, cost, _payment] =>
      match splitSpace dt with
      | [] => .error ()
      | [_only] => .error ()
      | _ :: second :: _ =>
        let hour := second.takeWhile (fun c => !(c == ':'))
        match parseFloat cost with
        | none => .ok []
        | some _ => .ok [(hour, cost)]
    | _ => .ok []

/-- `exercise5/mapper.py`: whole script over its input lines. -/
def ex5mapRun : List Line → Except Unit (List (Key × List Char))
  | [] => .ok []
  | l :: ls =>
    match ex5mapStep l with
    | .error e => .error e
    | .ok out =>
      match ex5mapRun ls with
      | .error e => .error e
      | .ok out2 => .ok (out ++ out2)

/-! ## Spec-side reference definitions

These follow the specification's words (§4.2), for the refinement and
invariant claims: the combine table `Initializer(v) = v`,
`Fold(acc, v)`, and the `NO_GROUP` / `IN_GROUP` state machine. -/

/-- Spec combine table, max-per-key: `Initializer(v) = v`. -/
def maxInit (v : ℚ) : ℚ := v

/-- Spec combine table, max-per-key: `Fold(acc, v) = v if v > acc else acc`. -/
def maxFold (acc v : ℚ) : ℚ := if v > acc then v else acc

/-- Spec combine table, count-per-key: `Initializer(v) = v`. -/
def countInit (v : ℤ) : ℤ := v

/-- Spec combine table, count-per-key: `Fold(acc, v) = acc + v`. -/
def countFold (acc v : ℤ) : ℤ := acc + v

/-- Spec combine table, sum-per-key: `Initializer(v) = v`. -/
def sumInit (v : ℚ) : ℚ := v

/-- Spec combine table, sum-per-key: `Fold(acc, v) = acc + v`. -/
def sumFold (acc v : ℚ) : ℚ := acc + v

/-- Modelled from the spec: the Aggregator state machine of §4.2 in state
`IN_GROUP(k, acc)` — fold on the same key, emit and re-initialize from the
new element on a key change, flush the open group at end of stream. -/
def specAggGo {μ α : Type} (init : μ → α) (fold : α → μ → α) :
    Key → α → List (Key × μ) → List (Key × α)
  | k, acc, [] => [(k, acc)]
  | k, acc, (k2, v) :: rest =>
    if k2 = k then specAggGo init fold k (fold acc v) rest
    else (k, acc) :: specAggGo init fold k2 (init v) rest

/-- Modelled from the spec: the Aggregator state machine of §4.2 started in
`NO_GROUP`: the first pair initializes the accumulator from its measure. -/
def specAgg {μ α : Type} (init : μ → α) (fold : α → μ → α) :
    List (Key × μ) → List (Key × α)
  | [] => []
  | (k, v) :: rest => specAggGo init fold k (init v) rest

/-- Spec combine function folded over a key's measures (max variant);
`none` on an empty measure list. -/
def combineMax : List ℚ → Option ℚ
  | [] => none
  | v :: vs => some (vs.foldl maxFold (maxInit v))

/-- Spec combine function folded over a key's measures (count variant). -/
def combineCount : List ℤ → Option ℤ
  | [] => none
  | v :: vs => some (vs.foldl countFold (countInit v))

/-- Spec combine function folded over a key's measures (sum variant). -/
def combineSum : List ℚ → Option ℚ
  | [] => none
  | v :: vs => some (vs.foldl sumFold (sumInit v))

/-- The measures of the input stream bearing key `k`, in stream order. -/
def measuresOf {μ : Type} (k : Key) (ps : List (Key × μ)) : List μ :=
  (ps.filter (fun p => p.1 == k)).map Prod.snd

/-- Contiguous deduplication of the key column: one entry per maximal
contiguous same-key run, in stream order. -/
def runKeys : List Key → List Key
  | [] => []
  | [k] => [k]
  | k :: k2 :: rest =>
    if k = k2 then runKeys (k2 :: rest) else k :: runKeys (k2 :: rest)

/-- Lexicographic key order used by the external sort collaborator. -/
def keyLe (a b : Key) : Prop := a ≤ b

instance : DecidableRel keyLe := fun a b => inferInstanceAs (Decidable (a ≤ b))

/-- A line that splits (after stripping) into exactly two tab-separated
fields, i.e. a syntactically well-shaped incoming pair. -/
def pairShaped (l : Line) : Prop := (splitTab (pyStrip l)).length = 2

instance : DecidablePred pairShaped := fun l =>
  inferInstanceAs (Decidable ((splitTab (pyStrip l)).length = 2))

/-- The parsed measure of a two-field line, if any (used to state the
grand-total claim). -/
def lineMeasure (l : Line) : Option ℚ :=
  match splitTab (pyStrip l) with
  | [_k, s] => parseFloat s
  | _ => none

/-- Modelled from the spec: "the sum of the measures of all well-formed
pairs regardless of their keys" — the grand total a run should report. -/
def specTotal (lines : List Line) : ℚ :=
  (lines.filterMap lineMeasure).sum

/-- The `exercise3/reducer.py` script as executed in a (hypothetical) process
whose globals still hold values `g` from an earlier run: the script's first
statements `maxSale = -1; oldKey = None` overwrite `g` before the loop, so
the run is a function of the input lines alone. -/
def ex3script (g : Option Key × ℚ) (lines : List Line) : Except Unit (List (Key × ℚ)) :=
  runEflush ex3lstep ((fun _ => ((none : Option Key), (-1 : ℚ))) g) lines

/-- The `exercise4/reducer.py` script run over stale globals `g`
(`count = 0; oldKey = None` overwrite them). -/
def ex4script (g : Option Key × ℤ) (lines : List Line) : Except Unit (List (Key × ℤ)) :=
  runEflush ex4lstep ((fun _ => ((none : Option Key), (0 : ℤ))) g) lines

/-- The `exercise5/reducer.py` script run over stale globals `g`
(`salesTotal = 0; oldKey = None` overwrite them). -/
def ex5script (g : Option Key × ℚ) (lines : List Line) : Except Unit (List (Key × ℚ)) :=
  runEflush ex5lstep ((fun _ => ((none : Option Key), (0 : ℚ))) g) lines

/-- The `exercise6/reducer.py` script run over a stale global total `g`
(`total = 0` overwrites it). -/
def ex6script (g : ℚ) (lines : List Line) : Except Unit (List (Key × ℚ)) :=
  (loopE ex6lstep ((fun _ => (0 : ℚ)) g) lines).map
    (fun r => r.2 ++ [(cl "TOTAL_ABSOLUTO", r.1)])

instance {ε α : Type} [DecidableEq ε] [DecidableEq α] : DecidableEq (Except ε α) := fun a b =>
  match a, b with
  | .ok x, .ok y =>
    if h : x = y then .isTrue (by rw [h]) else .isFalse (by intro hc; cases hc; exact h rfl)
  | .error x, .error y =>
    if h : x = y then .isTrue (by rw [h]) else .isFalse (by intro hc; cases hc; exact h rfl)
  | .ok _, .error _ => .isFalse (by intro hc; cases hc)
  | .error _, .ok _ => .isFalse (by intro hc; cases hc)

/-! ## Structural lemmas about `pyStrip` and `splitTab` -/

theorem head?_dropWhile_not (p : Char → Bool) :
    ∀ (l : List Char) (c : Char), (l.dropWhile p).head? = some c → p c = false := by
  intro l
  induction l with
  | nil => intro c h; simp [List.dropWhile] at h
  | cons a t ih =>
    intro c h
    by_cases hpa : p a
    · rw [List.dropWhile_cons, if_pos hpa] at h
      exact ih c h
    · rw [List.dropWhile_cons, if_neg hpa] at h
      simp only [List.head?_cons, Option.some.injEq] at h
      rw [← h]
      exact Bool.not_eq_true _ ▸ (by simpa using hpa)

theorem stripEnd_head? :
    ∀ (l : List Char) (c : Char), (stripEnd l).head? = some c → l.head? = some c := by
  intro l c h
  cases l with
  | nil => simp [stripEnd] at h
  | cons a t =>
    rw [stripEnd] at h
    cases hst : stripEnd t with
    | nil =>
      rw [hst] at h
      by_cases hws : pyWS a
      · simp [hws] at h
      · simp [hws] at h
        simp [h]
    | cons b bs =>
      rw [hst] at h
      simp only [List.head?_cons, Option.some.injEq] at h
      simp [h]

theorem stripEnd_sublist : ∀ l : List Char, (stripEnd l).Sublist l := by
  intro l
  induction l with
  | nil => simp [stripEnd]
  | cons a t ih =>
    rw [stripEnd]
    cases hst : stripEnd t with
    | nil =>
      by_cases hws : pyWS a
      · simp [hws]
      · simp [hws]
    | cons b bs =>
      rw [hst] at ih
      exact ih.cons₂ a

theorem pyStrip_mem {c : Char} {l : List Char} (h : c ∈ pyStrip l) : c ∈ l := by
  unfold pyStrip at h
  exact (List.Sublist.trans (stripEnd_sublist _) (List.dropWhile_sublist _)).subset h

theorem pyStrip_head_not_ws {l : List Char} {c : Char}
    (h : (pyStrip l).head? = some c) : pyWS c = false :=
  head?_dropWhile_not pyWS l c (stripEnd_head? _ c h)

theorem splitTab_ne_nil : ∀ cs : List Char, splitTab cs ≠ [] := by
  intro cs
  cases cs with
  | nil => simp [splitTab]
  | cons c t =>
    rw [splitTab]
    by_cases hc : c = '\t'
    · simp [hc]
    · simp only [hc, if_false]
      cases splitTab t <;> simp

theorem splitTab_no_tab : ∀ cs : List Char, '\t' ∉ cs → splitTab cs = [cs] := by
  intro cs
  induction cs with
  | nil => intro _; rfl
  | cons c t ih =>
    intro h
    have hc : ¬ c = '\t' := fun hc => h (hc ▸ List.mem_cons_self c t)
    have ht : '\t' ∉ t := fun hm => h (List.mem_cons_of_mem c hm)
    rw [splitTab, if_neg hc, ih ht]

theorem splitTab_two_key_ne {l : Line} {k s : List Char}
    (h : splitTab (pyStrip l) = [k, s]) : k ≠ [] := by
  cases hps : pyStrip l with
  | nil =>
    rw [hps] at h
    simp [splitTab] at h
  | cons c cs =>
    have hws : pyWS c = false := pyStrip_head_not_ws (l := l) (by rw [hps]; rfl)
    have hct : ¬ c = '\t' := by
      intro hc; rw [hc] at hws; simp [pyWS] at hws
    rw [hps, splitTab, if_neg hct] at h
    cases hsp : splitTab cs with
    | nil => rw [hsp] at h; simp at h
    | cons f fs =>
      rw [hsp] at h
      simp only [List.cons.injEq] at h
      intro hk
      rw [← h.1] at hk
      exact List.cons_ne_nil c f hk

theorem pairShaped_of_two {l : Line} {k s : List Char}
    (h : splitTab (pyStrip l) = [k, s]) : pairShaped l := by
  unfold pairShaped; rw [h]; rfl

/-! ## Generic loop lemmas -/

theorem loopE_nil {σ ω : Type} (step : σ → Line → Except Unit (σ × List ω)) (st : σ) :
    loopE step st [] = .ok (st, []) := rfl

theorem loopE_cons {σ ω : Type} (step : σ → Line → Except Unit (σ × List ω))
    (st : σ) (l : Line) (ls : List Line) :
    loopE step st (l :: ls) =
      match step st l with
      | .error e => .error e
      | .ok r =>
        match loopE step r.1 ls with
        | .error e => .error e
        | .ok r2 => .ok (r2.1, r.2 ++ r2.2) := rfl

theorem loopE_skip_middle {σ ω : Type} (step : σ → Line → Except Unit (σ × List ω))
    (l : Line) (hskip : ∀ st, step st l = .ok (st, ([] : List ω))) :
    ∀ (pre : List Line) (st : σ) (post : List Line),
      loopE step st (pre ++ l :: post) = loopE step st (pre ++ post) := by
  intro pre
  induction pre with
  | nil =>
    intro st post
    rw [List.nil_append, List.nil_append, loopE_cons, hskip st]
    cases h : loopE step st post with
    | error e => simp [h]
    | ok r2 => simp [h]
  | cons p pre' ih =>
    intro st post
    rw [List.cons_append, List.cons_append, loopE_cons, loopE_cons]
    cases hsp : step st p with
    | error e => rfl
    | ok r => dsimp only; rw [ih r.1 post]

theorem loopE_all_skip {σ ω : Type} (step : σ → Line → Except Unit (σ × List ω)) :
    ∀ (lines : List Line) (st : σ),
      (∀ l ∈ lines, ∀ st', step st' l = .ok (st', ([] : List ω))) →
      loopE step st lines = .ok (st, []) := by
  intro lines
  induction lines with
  | nil => intro st _; rfl
  | cons l ls ih =>
    intro st h
    rw [loopE_cons, h l (List.mem_cons_self l ls) st]
    dsimp only
    rw [ih st (fun l' hm st' => h l' (List.mem_cons_of_mem l hm) st')]
    rfl

theorem loopE_inv {σ ω : Type} (step : σ → Line → Except Unit (σ × List ω))
    (P : σ → Prop)
    (hstep : ∀ st l r, P st → step st l = .ok r → P r.1) :
    ∀ (lines : List Line) (st : σ) (r : σ × List ω),
      P st → loopE step st lines = .ok r → P r.1 := by
  intro lines
  induction lines with
  | nil =>
    intro st r hP h
    rw [loopE_nil] at h
    cases h; exact hP
  | cons l ls ih =>
    intro st r hP h
    rw [loopE_cons] at h
    cases hsl : step st l with
    | error e => rw [hsl] at h; cases h
    | ok r1 =>
      rw [hsl] at h
      dsimp only at h
      cases hrec : loopE step r1.1 ls with
      | error e => rw [hrec] at h; cases h
      | ok r2 =>
        rw [hrec] at h
        dsimp only at h
        cases h
        exact ih r1.1 r2 (hstep st l r1 hP hsl) hrec

theorem loopE_error_of_mem {σ ω : Type} (step : σ → Line → Except Unit (σ × List ω))
    (l : Line) (herr : ∀ st, step st l = (.error () : Except Unit (σ × List ω))) :
    ∀ (lines : List Line) (st : σ), l ∈ lines →
      loopE step st lines = .error () := by
  intro lines
  induction lines with
  | nil => intro st h; cases h
  | cons a ls ih =>
    intro st hmem
    rw [loopE_cons]
    cases hsa : step st a with
    | error e => cases e; rfl
    | ok r =>
      rcases List.mem_cons.mp hmem with heq | hmem'
      · rw [← heq] at hsa; rw [herr st] at hsa; cases hsa
      · dsimp only; rw [ih r.1 hmem']

theorem loopP_nil {σ π ω : Type} (step : σ → π → σ × List ω) (st : σ) :
    loopP step st [] = (st, []) := rfl

theorem loopP_cons {σ π ω : Type} (step : σ → π → σ × List ω) (st : σ) (p : π) (ps : List π) :
    loopP step st (p :: ps) =
      ((loopP step (step st p).1 ps).1, (step st p).2 ++ (loopP step (step st p).1 ps).2) := rfl

theorem runPflush_nil {μ α : Type}
    (step : (Option Key × α) → (Key × μ) → (Option Key × α) × List (Key × α))
    (st : Option Key × α) : runPflush step st [] = flushSt st := by
  simp [runPflush, loopP_nil]

theorem runPflush_cons {μ α : Type}
    (step : (Option Key × α) → (Key × μ) → (Option Key × α) × List (Key × α))
    (st : Option Key × α) (p : Key × μ) (ps : List (Key × μ)) :
    runPflush step st (p :: ps) = (step st p).2 ++ runPflush step (step st p).1 ps := by
  simp [runPflush, loopP_cons, List.append_assoc]

theorem runEflush_ok {α : Type}
    (step : (Option Key × α) → Line → Except Unit ((Option Key × α) × List (Key × α)))
    (st : Option Key × α) (lines : List Line) (r : (Option Key × α) × List (Key × α))
    (h : loopE step st lines = .ok r) :
    runEflush step st lines = .ok (r.2 ++ flushSt r.1) := by
  simp [runEflush, h, Except.map]

theorem runEflush_error {α : Type}
    (step : (Option Key × α) → Line → Except Unit ((Option Key × α) × List (Key × α)))
    (st : Option Key × α) (lines : List Line)
    (h : loopE step st lines = .error ()) :
    runEflush step st lines = .error () := by
  simp [runEflush, h, Except.map]

/-! ## Line-level step lemmas -/

theorem mkLstep_skip {μ α : Type} (parse : List Char → Option μ)
    (pstep : (Option Key × α) → (Key × μ) → (Option Key × α) × List (Key × α))
    (l : Line) (h : ¬ pairShaped l) (st : Option Key × α) :
    mkLstep parse pstep st l = .ok (st, []) := by
  unfold pairShaped at h
  unfold mkLstep
  rcases hsp : splitTab (pyStrip l) with _ | ⟨a, _ | ⟨b, _ | t⟩⟩
  · rfl
  · rfl
  · rw [hsp] at h; simp at h
  · rfl

theorem mkLstep_error {μ α : Type} (parse : List Char → Option μ)
    (pstep : (Option Key × α) → (Key × μ) → (Option Key × α) × List (Key × α))
    {l : Line} {k s : List Char} (h2 : splitTab (pyStrip l) = [k, s])
    (hp : parse s = none) (st : Option Key × α) :
    mkLstep parse pstep st l = .error () := by
  unfold mkLstep
  rw [h2]
  dsimp only
  rw [hp]

theorem mkLstep_ok_pair {μ α : Type} (parse : List Char → Option μ)
    (pstep : (Option Key × α) → (Key × μ) → (Option Key × α) × List (Key × α))
    {l : Line} {k s : List Char} {v : μ} (h2 : splitTab (pyStrip l) = [k, s])
    (hp : parse s = some v) (st : Option Key × α) :
    mkLstep parse pstep st l = .ok (pstep st (k, v)) := by
  unfold mkLstep
  rw [h2]
  dsimp only
  rw [hp]

theorem mkLstep_ok_cases {μ α : Type} (parse : List Char → Option μ)
    (pstep : (Option Key × α) → (Key × μ) → (Option Key × α) × List (Key × α))
    {l : Line} {st : Option Key × α} {r : (Option Key × α) × List (Key × α)}
    (h : mkLstep parse pstep st l = .ok r) :
    (¬ pairShaped l ∧ r = (st, [])) ∨
      (∃ k s v, splitTab (pyStrip l) = [k, s] ∧ parse s = some v ∧ r = pstep st (k, v)) := by
  revert h
  unfold mkLstep pairShaped
  rcases hsp : splitTab (pyStrip l) with _ | ⟨a, _ | ⟨b, _ | t⟩⟩
  · intro h; cases h; exact Or.inl ⟨by simp, rfl⟩
  · intro h; cases h; exact Or.inl ⟨by simp, rfl⟩
  · dsimp only
    cases hp : parse b with
    | none => intro h; cases h
    | some v => intro h; cases h; exact Or.inr ⟨a, b, v, rfl, hp, rfl⟩
  · intro h; cases h; exact Or.inl ⟨by simp, rfl⟩

theorem pairStepMax_key (st : Option Key × ℚ) (p : Key × ℚ) :
    ((pairStepMax st p).1).1 = some p.1 := by
  unfold pairStepMax
  dsimp only
  split <;> rfl

theorem pairStepCount_key (st : Option Key × ℤ) (p : Key × ℤ) :
    ((pairStepCount st p).1).1 = some p.1 := by
  unfold pairStepCount
  dsimp only
  split <;> rfl

theorem pairStepSum_key (st : Option Key × ℚ) (p : Key × ℚ) :
    ((pairStepSum st p).1).1 = some p.1 := by
  unfold pairStepSum
  dsimp only
  split <;> rfl

/-- Reachable-state invariant: the loop never stores an empty key in
`oldKey`, because the first field of a stripped two-field line is nonempty. -/
theorem loopE_key_inv {μ α : Type} (parse : List Char → Option μ)
    (pstep : (Option Key × α) → (Key × μ) → (Option Key × α) × List (Key × α))
    (hkey : ∀ st p, ((pstep st p).1).1 = some p.1)
    (lines : List Line) (st : Option Key × α) (r : (Option Key × α) × List (Key × α))
    (hst : st.1 = none ∨ ∃ k, st.1 = some k ∧ k ≠ [])
    (h : loopE (mkLstep parse pstep) st lines = .ok r) :
    r.1.1 = none ∨ ∃ k, r.1.1 = some k ∧ k ≠ [] := by
  refine loopE_inv (mkLstep parse pstep) (fun s => s.1 = none ∨ ∃ k, s.1 = some k ∧ k ≠ [])
    ?_ lines st r hst h
  intro s l r1 hPs hstep
  rcases mkLstep_ok_cases parse pstep hstep with ⟨_, hr⟩ | ⟨k, sfld, v, hsp, _, hr⟩
  · rw [hr]; exact hPs
  · rw [hr, hkey s (k, v)]
    exact Or.inr ⟨k, rfl, splitTab_two_key_ne hsp⟩

/-- After a successful loop, `oldKey` is non-`None` iff some line was
two-field shaped. -/
theorem loopE_some_of_pair {μ α : Type} (parse : List Char → Option μ)
    (pstep : (Option Key × α) → (Key × μ) → (Option Key × α) × List (Key × α))
    (hkey : ∀ st p, ((pstep st p).1).1 = some p.1) :
    ∀ (lines : List Line) (st : Option Key × α) (r : (Option Key × α) × List (Key × α)),
      loopE (mkLstep parse pstep) st lines = .ok r →
      (∃ l ∈ lines, pairShaped l) ∨ st.1 ≠ none →
      r.1.1 ≠ none := by
  intro lines
  induction lines with
  | nil =>
    intro st r h hh
    rw [loopE_nil] at h
    cases h
    rcases hh with ⟨l, hm, _⟩ | hs
    · cases hm
    · exact hs
  | cons l ls ih =>
    intro st r h hh
    rw [loopE_cons] at h
    cases hsl : mkLstep parse pstep st l with
    | error e => rw [hsl] at h; cases h
    | ok r1 =>
      rw [hsl] at h
      dsimp only at h
      cases hrec : loopE (mkLstep parse pstep) r1.1 ls with
      | error e => rw [hrec] at h; cases h
      | ok r2 =>
        rw [hrec] at h
        dsimp only at h
        cases h
        rcases hh with ⟨l', hm, hps⟩ | hs
        · rcases List.mem_cons.mp hm with heq | hm'
          · rcases mkLstep_ok_cases parse pstep hsl with ⟨hnp, _⟩ | ⟨k, sf, v, hsp, hpv, hr⟩
            · rw [heq] at hps; exact absurd hps hnp
            · refine ih r1.1 r2 hrec (Or.inr ?_)
              rw [hr, hkey st (k, v)]
              simp
          · exact ih r1.1 r2 hrec (Or.inl ⟨l', hm', hps⟩)
        · rcases mkLstep_ok_cases parse pstep hsl with ⟨hnp, hr⟩ | ⟨k, sf, v, hsp, hpv, hr⟩
          · refine ih r1.1 r2 hrec (Or.inr ?_)
            rw [hr]; exact hs
          · refine ih r1.1 r2 hrec (Or.inr ?_)
            rw [hr, hkey st (k, v)]
            simp

/-! ## Lemmas about the spec-side aggregator -/

theorem specAggGo_cons {μ α : Type} (init : μ → α) (fold : α → μ → α)
    (k : Key) (acc : α) (k2 : Key) (v : μ) (rest : List (Key × μ)) :
    specAggGo init fold k acc ((k2, v) :: rest) =
      if k2 = k then specAggGo init fold k (fold acc v) rest
      else (k, acc) :: specAggGo init fold k2 (init v) rest := rfl

theorem runKeys_pair (k k2 : Key) (t : List Key) :
    runKeys (k :: k2 :: t) =
      if k = k2 then runKeys (k2 :: t) else k :: runKeys (k2 :: t) := rfl

theorem runKeys_mem : ∀ (l : List Key) (q : Key), q ∈ runKeys l ↔ q ∈ l := by
  intro l
  induction l with
  | nil => intro q; simp [runKeys]
  | cons k t ih =>
    intro q
    cases t with
    | nil => simp [runKeys]
    | cons k2 t2 =>
      rw [runKeys_pair]
      by_cases h : k = k2
      · rw [if_pos h, ih, h]
        simp [List.mem_cons]
      · rw [if_neg h]
        simp [List.mem_cons, ih]

theorem specAggGo_keys {μ α : Type} (init : μ → α) (fold : α → μ → α) :
    ∀ (ps : List (Key × μ)) (k : Key) (acc : α),
      (specAggGo init fold k acc ps).map Prod.fst = runKeys (k :: ps.map Prod.fst) := by
  intro ps
  induction ps with
  | nil => intro k acc; rfl
  | cons p rest ih =>
    intro k acc
    obtain ⟨k2, v⟩ := p
    by_cases h : k2 = k
    · subst h
      rw [specAggGo_cons, if_pos rfl, ih, List.map_cons, runKeys_pair, if_pos rfl]
    · rw [specAggGo_cons, if_neg h]
      dsimp only [List.map_cons]
      rw [ih, runKeys_pair, if_neg (fun hh => h hh.symm)]

theorem not_mem_of_pairwise_ne {k k2 : Key} {t : List Key}
    (hp : List.Pairwise keyLe (k :: k2 :: t)) (hne : k ≠ k2) : k ∉ t := by
  intro hmem
  rcases List.pairwise_cons.mp hp with ⟨h1, hp2⟩
  rcases List.pairwise_cons.mp hp2 with ⟨h2, _⟩
  exact hne (le_antisymm (h1 k2 (List.mem_cons_self k2 t)) (h2 k hmem))

theorem runKeys_nodup : ∀ l : List Key, List.Pairwise keyLe l → (runKeys l).Nodup := by
  intro l
  induction l with
  | nil => intro _; simp [runKeys]
  | cons k t ih =>
    intro hp
    cases t with
    | nil => simp [runKeys]
    | cons k2 t2 =>
      rw [runKeys_pair]
      by_cases h : k = k2
      · rw [if_pos h]
        exact ih (List.pairwise_cons.mp hp).2
      · rw [if_neg h]
        refine List.nodup_cons.mpr ⟨?_, ih (List.pairwise_cons.mp hp).2⟩
        intro hmem
        rw [runKeys_mem] at hmem
        rcases List.mem_cons.mp hmem with heq | hmem2
        · exact h heq
        · exact not_mem_of_pairwise_ne hp h hmem2

theorem measuresOf_cons {μ : Type} (q k : Key) (v : μ) (ps : List (Key × μ)) :
    measuresOf q ((k, v) :: ps) =
      if k = q then v :: measuresOf q ps else measuresOf q ps := by
  unfold measuresOf
  by_cases h : k = q
  · simp [List.filter_cons, h]
  · simp [List.filter_cons, h]

theorem measuresOf_eq_nil {μ : Type} (q : Key) :
    ∀ ps : List (Key × μ), q ∉ ps.map Prod.fst → measuresOf q ps = [] := by
  intro ps
  induction ps with
  | nil => intro _; rfl
  | cons p rest ih =>
    intro h
    obtain ⟨k, v⟩ := p
    rw [List.map_cons, List.mem_cons] at h
    push_neg at h
    rw [measuresOf_cons, if_neg (fun hh => h.1 hh.symm)]
    exact ih h.2

/-- Every result of the spec aggregator, run on a key-sorted continuation
with pending measures `v0 :: vs0` for the open group `k`, is either the open
group's result (its value folding the pending and remaining `k`-measures) or
the combine fold of `measuresOf q` for a later group `q`. -/
theorem specAggGo_values {μ α : Type} (init : μ → α) (fold : α → μ → α) :
    ∀ (ps : List (Key × μ)) (k : Key) (v0 : μ) (vs0 : List μ),
      List.Pairwise keyLe (k :: ps.map Prod.fst) →
      ∀ q a, (q, a) ∈ specAggGo init fold k (vs0.foldl fold (init v0)) ps →
        (q = k ∧ a = (vs0 ++ measuresOf k ps).foldl fold (init v0)) ∨
        (q ≠ k ∧ ∃ w ws, measuresOf q ps = w :: ws ∧ a = ws.foldl fold (init w)) := by
  intro ps
  induction ps with
  | nil =>
    intro k v0 vs0 _ q a hmem
    simp only [specAggGo, List.mem_singleton, Prod.mk.injEq] at hmem
    refine Or.inl ⟨hmem.1, ?_⟩
    rw [hmem.2]
    simp [measuresOf]
  | cons p rest ih =>
    intro k v0 vs0 hp q a hmem
    obtain ⟨k2, v⟩ := p
    by_cases hk2 : k2 = k
    · subst hk2
      rw [specAggGo_cons, if_pos rfl] at hmem
      have hfold : fold (vs0.foldl fold (init v0)) v = (vs0 ++ [v]).foldl fold (init v0) := by
        rw [List.foldl_append]
        rfl
      rw [hfold] at hmem
      have hp' : List.Pairwise keyLe (k2 :: rest.map Prod.fst) :=
        (List.pairwise_cons.mp hp).2
      rcases ih k2 v0 (vs0 ++ [v]) hp' q a hmem with ⟨hq, ha⟩ | ⟨hq, w, ws, hm, ha⟩
      · refine Or.inl ⟨hq, ?_⟩
        rw [ha, measuresOf_cons, if_pos rfl]
        simp [List.append_assoc]
      · refine Or.inr ⟨hq, w, ws, ?_, ha⟩
        rw [measuresOf_cons, if_neg (fun hh => hq hh.symm)]
        exact hm
    · rw [specAggGo_cons, if_neg hk2] at hmem
      rcases List.mem_cons.mp hmem with heq | hmem2
      · rw [Prod.mk.injEq] at heq
        refine Or.inl ⟨heq.1, ?_⟩
        have hknot : k ∉ rest.map Prod.fst :=
          not_mem_of_pairwise_ne hp (fun hh => hk2 hh.symm)
        rw [heq.2, measuresOf_cons, if_neg hk2, measuresOf_eq_nil k rest hknot]
        simp
      · have hp2 : List.Pairwise keyLe (k2 :: rest.map Prod.fst) :=
          (List.pairwise_cons.mp (List.pairwise_cons.mp hp).2).2.cons
            (List.pairwise_cons.mp (List.pairwise_cons.mp hp).2).1
        have hmem2' : (q, a) ∈ specAggGo init fold k2 (List.foldl fold (init v) []) rest := hmem2
        rcases ih k2 v [] hp2 q a hmem2' with ⟨hq, ha⟩ | ⟨hq, w, ws, hm, ha⟩
        · refine Or.inr ⟨?_, v, measuresOf k2 rest, ?_, ?_⟩
          · rw [hq]; exact hk2
          · rw [hq, measuresOf_cons, if_pos rfl]
          · rw [ha]; simp
        · have hqmem : q ∈ (specAggGo init fold k2 (init v) rest).map Prod.fst :=
            List.mem_map_of_mem Prod.fst hmem2
          rw [specAggGo_keys, runKeys_mem] at hqmem
          have hqk : q ≠ k := by
            intro hh
            rcases List.mem_cons.mp hqmem with h1 | h2
            · exact hk2 (hh ▸ h1.symm)
            · exact not_mem_of_pairwise_ne hp (fun h3 => hk2 h3.symm) (hh ▸ h2)
          refine Or.inr ⟨hqk, w, ws, ?_, ha⟩
          rw [measuresOf_cons, if_neg (fun hh => hq hh.symm)]
          exact hm

/-! ## The reducers compute the spec aggregator (on nonempty keys) -/

theorem runPflush_eq_specAggGo {μ α : Type} (init : μ → α) (fold : α → μ → α)
    (pstep : (Option Key × α) → (Key × μ) → (Option Key × α) × List (Key × α))
    (hB : ∀ k acc k2 v, k ≠ [] → k2 ≠ k →
      pstep (some k, acc) (k2, v) = ((some k2, init v), [(k, acc)]))
    (hF : ∀ k acc v, k ≠ [] → pstep (some k, acc) (k, v) = ((some k, fold acc v), [])) :
    ∀ (ps : List (Key × μ)) (k : Key) (acc : α), k ≠ [] →
      (∀ p ∈ ps, p.1 ≠ ([] : Key)) →
      runPflush pstep (some k, acc) ps = specAggGo init fold k acc ps := by
  intro ps
  induction ps with
  | nil =>
    intro k acc hk _
    rw [runPflush_nil]
    rfl
  | cons p rest ih =>
    intro k acc hk hall
    obtain ⟨k2, v⟩ := p
    have hk2 : k2 ≠ [] := hall (k2, v) (List.mem_cons_self _ _)
    have hall' : ∀ p ∈ rest, p.1 ≠ ([] : Key) :=
      fun p hm => hall p (List.mem_cons_of_mem _ hm)
    by_cases hkk : k2 = k
    · subst hkk
      rw [runPflush_cons, hF k2 acc v hk]
      rw [specAggGo_cons, if_pos rfl]
      dsimp only
      rw [List.nil_append]
      exact ih k2 (fold acc v) hk hall'
    · rw [runPflush_cons, hB k acc k2 v hk hkk]
      rw [specAggGo_cons, if_neg hkk]
      dsimp only
      rw [ih k2 (init v) hk2 hall']
      rfl

theorem pairStepMax_boundary (k : Key) (acc : ℚ) (k2 : Key) (v : ℚ)
    (hk : k ≠ []) (hne : k2 ≠ k) :
    pairStepMax (some k, acc) (k2, v) = ((some k2, maxInit v), [(k, acc)]) := by
  unfold pairStepMax
  dsimp only
  have h1 : pyTruthy (some k) = true := by simp [pyTruthy, hk]
  have h2 : pyNeqK (some k) k2 = true := by simp [pyNeqK]; exact fun h => hne h.symm
  rw [h1, h2]
  rfl

theorem pairStepMax_fold (k : Key) (acc v : ℚ) (_hk : k ≠ []) :
    pairStepMax (some k, acc) (k, v) = ((some k, maxFold acc v), []) := by
  unfold pairStepMax
  dsimp only
  have h2 : pyNeqK (some k) k = false := by simp [pyNeqK]
  rw [h2, Bool.and_false]
  rfl

theorem pairStepCount_boundary (k : Key) (acc : ℤ) (k2 : Key) (v : ℤ)
    (hk : k ≠ []) (hne : k2 ≠ k) :
    pairStepCount (some k, acc) (k2, v) = ((some k2, countInit v), [(k, acc)]) := by
  unfold pairStepCount
  dsimp only
  have h1 : pyTruthy (some k) = true := by simp [pyTruthy, hk]
  have h2 : pyNeqK (some k) k2 = true := by simp [pyNeqK]; exact fun h => hne h.symm
  rw [h1, h2]
  rfl

theorem pairStepCount_fold (k : Key) (acc v : ℤ) (_hk : k ≠ []) :
    pairStepCount (some k, acc) (k, v) = ((some k, countFold acc v), []) := by
  unfold pairStepCount
  dsimp only
  have h2 : pyNeqK (some k) k = false := by simp [pyNeqK]
  rw [h2, Bool.and_false]
  rfl

theorem pairStepSum_boundary (k : Key) (acc : ℚ) (k2 : Key) (v : ℚ)
    (hk : k ≠ []) (hne : k2 ≠ k) :
    pairStepSum (some k, acc) (k2, v) = ((some k2, sumInit v), [(k, acc)]) := by
  unfold pairStepSum
  dsimp only
  have h1 : pyTruthy (some k) = true := by simp [pyTruthy, hk]
  have h2 : pyNeqK (some k) k2 = true := by simp [pyNeqK]; exact fun h => hne h.symm
  rw [h1, h2]
  simp [sumInit]

theorem pairStepSum_fold (k : Key) (acc v : ℚ) (_hk : k ≠ []) :
    pairStepSum (some k, acc) (k, v) = ((some k, sumFold acc v), []) := by
  unfold pairStepSum
  dsimp only
  have h2 : pyNeqK (some k) k = false := by simp [pyNeqK]
  rw [h2, Bool.and_false]
  rfl

/-- First pair of `exercise3/reducer.py`: with `oldKey = None` the boundary
test is falsy, so the first measure is *folded into* the initial `-1`. -/
theorem ex3runP_cons (k : Key) (v : ℚ) (rest : List (Key × ℚ)) :
    ex3runP ((k, v) :: rest) = runPflush pairStepMax (some k, maxFold (-1) v) rest := by
  unfold ex3runP
  rw [runPflush_cons]
  rfl

/-- First pair of `exercise4/reducer.py`: `count = 0 + v = v`. -/
theorem ex4runP_cons (k : Key) (v : ℤ) (rest : List (Key × ℤ)) :
    ex4runP ((k, v) :: rest) = runPflush pairStepCount (some k, countInit v) rest := by
  unfold ex4runP
  rw [runPflush_cons]
  have h : pairStepCount (none, 0) (k, v) = ((some k, countInit v), []) := by
    simp [pairStepCount, pyTruthy, countInit]
  rw [h]
  rfl

/-- First pair of `exercise5/reducer.py`: `salesTotal = 0 + v = v`. -/
theorem ex5runP_cons (k : Key) (v : ℚ) (rest : List (Key × ℚ)) :
    ex5runP ((k, v) :: rest) = runPflush pairStepSum (some k, sumInit v) rest := by
  unfold ex5runP
  rw [runPflush_cons]
  have h : pairStepSum (none, 0) (k, v) = ((some k, sumInit v), []) := by
    simp [pairStepSum, pyTruthy, sumInit]
  rw [h]
  rfl

/-! ## Per-variant characterizations -/

/-- Count-per-key reducer characterization on sorted nonempty-key streams. -/
theorem ex4_characterization (ps : List (Key × ℤ))
    (hs : List.Pairwise keyLe (ps.map Prod.fst))
    (hk : ∀ p ∈ ps, p.1 ≠ ([] : Key)) :
    (ex4runP ps).map Prod.fst = runKeys (ps.map Prod.fst) ∧
    ((ex4runP ps).map Prod.fst).Nodup ∧
    (∀ q, q ∈ (ex4runP ps).map Prod.fst ↔ q ∈ ps.map Prod.fst) ∧
    ∀ q a, (q, a) ∈ ex4runP ps → combineCount (measuresOf q ps) = some a := by
  cases ps with
  | nil =>
    refine ⟨rfl, by simp [ex4runP, runPflush_nil, flushSt], by simp [ex4runP, runPflush_nil, flushSt], ?_⟩
    intro q a hmem
    simp [ex4runP, runPflush_nil, flushSt] at hmem
  | cons p rest =>
    obtain ⟨k0, v0⟩ := p
    have hk0 : k0 ≠ [] := hk (k0, v0) (List.mem_cons_self _ _)
    have hall' : ∀ p ∈ rest, p.1 ≠ ([] : Key) :=
      fun p hm => hk p (List.mem_cons_of_mem _ hm)
    have hA : ex4runP ((k0, v0) :: rest) =
        specAggGo countInit countFold k0 (countInit v0) rest := by
      rw [ex4runP_cons]
      exact runPflush_eq_specAggGo countInit countFold pairStepCount
        pairStepCount_boundary pairStepCount_fold rest k0 (countInit v0) hk0 hall'
    have hkeys : (ex4runP ((k0, v0) :: rest)).map Prod.fst =
        runKeys (((k0, v0) :: rest).map Prod.fst) := by
      rw [hA, specAggGo_keys]
      dsimp only [List.map_cons]
    refine ⟨hkeys, ?_, ?_, ?_⟩
    · rw [hkeys]; exact runKeys_nodup _ hs
    · intro q; rw [hkeys, runKeys_mem]
    · intro q a hmem
      rw [hA] at hmem
      rcases specAggGo_values countInit countFold rest k0 v0 [] hs q a hmem with
        ⟨hq, ha⟩ | ⟨hq, w, ws, hm, ha⟩
      · subst hq
        rw [measuresOf_cons, if_pos rfl]
        rw [combineCount, ha]
        simp
      · rw [measuresOf_cons, if_neg (fun hh => hq hh.symm), hm, combineCount, ha]

/-- Sum-per-key reducer characterization on sorted nonempty-key streams. -/
theorem ex5_characterization (ps : List (Key × ℚ))
    (hs : List.Pairwise keyLe (ps.map Prod.fst))
    (hk : ∀ p ∈ ps, p.1 ≠ ([] : Key)) :
    (ex5runP ps).map Prod.fst = runKeys (ps.map Prod.fst) ∧
    ((ex5runP ps).map Prod.fst).Nodup ∧
    (∀ q, q ∈ (ex5runP ps).map Prod.fst ↔ q ∈ ps.map Prod.fst) ∧
    ∀ q a, (q, a) ∈ ex5runP ps → combineSum (measuresOf q ps) = some a := by
  cases ps with
  | nil =>
    refine ⟨rfl, by simp [ex5runP, runPflush_nil, flushSt], by simp [ex5runP, runPflush_nil, flushSt], ?_⟩
    intro q a hmem
    simp [ex5runP, runPflush_nil, flushSt] at hmem
  | cons p rest =>
    obtain ⟨k0, v0⟩ := p
    have hk0 : k0 ≠ [] := hk (k0, v0) (List.mem_cons_self _ _)
    have hall' : ∀ p ∈ rest, p.1 ≠ ([] : Key) :=
      fun p hm => hk p (List.mem_cons_of_mem _ hm)
    have hA : ex5runP ((k0, v0) :: rest) =
        specAggGo sumInit sumFold k0 (sumInit v0) rest := by
      rw [ex5runP_cons]
      exact runPflush_eq_specAggGo sumInit sumFold pairStepSum
        pairStepSum_boundary pairStepSum_fold rest k0 (sumInit v0) hk0 hall'
    have hkeys : (ex5runP ((k0, v0) :: rest)).map Prod.fst =
        runKeys (((k0, v0) :: rest).map Prod.fst) := by
      rw [hA, specAggGo_keys]
      dsimp only [List.map_cons]
    refine ⟨hkeys, ?_, ?_, ?_⟩
    · rw [hkeys]; exact runKeys_nodup _ hs
    · intro q; rw [hkeys, runKeys_mem]
    · intro q a hmem
      rw [hA] at hmem
      rcases specAggGo_values sumInit sumFold rest k0 v0 [] hs q a hmem with
        ⟨hq, ha⟩ | ⟨hq, w, ws, hm, ha⟩
      · subst hq
        rw [measuresOf_cons, if_pos rfl]
        rw [combineSum, ha]
        simp
      · rw [measuresOf_cons, if_neg (fun hh => hq hh.symm), hm, combineSum, ha]

/-- Max-per-key reducer characterization on sorted nonempty-key streams: the
first group additionally folds the initial sentinel `-1`. -/
theorem ex3_characterization (ps : List (Key × ℚ))
    (hs : List.Pairwise keyLe (ps.map Prod.fst))
    (hk : ∀ p ∈ ps, p.1 ≠ ([] : Key)) :
    (ex3runP ps).map Prod.fst = runKeys (ps.map Prod.fst) ∧
    ((ex3runP ps).map Prod.fst).Nodup ∧
    (∀ q, q ∈ (ex3runP ps).map Prod.fst ↔ q ∈ ps.map Prod.fst) ∧
    ∀ q a, (q, a) ∈ ex3runP ps →
      if (ps.map Prod.fst).head? = some q then
        combineMax ((-1) :: measuresOf q ps) = some a
      else
        combineMax (measuresOf q ps) = some a := by
  cases ps with
  | nil =>
    refine ⟨rfl, by simp [ex3runP, runPflush_nil, flushSt], by simp [ex3runP, runPflush_nil, flushSt], ?_⟩
    intro q a hmem
    simp [ex3runP, runPflush_nil, flushSt] at hmem
  | cons p rest =>
    obtain ⟨k0, v0⟩ := p
    have hk0 : k0 ≠ [] := hk (k0, v0) (List.mem_cons_self _ _)
    have hall' : ∀ p ∈ rest, p.1 ≠ ([] : Key) :=
      fun p hm => hk p (List.mem_cons_of_mem _ hm)
    have hA : ex3runP ((k0, v0) :: rest) =
        specAggGo maxInit maxFold k0 (List.foldl maxFold (maxInit (-1)) [v0]) rest := by
      rw [ex3runP_cons]
      exact runPflush_eq_specAggGo maxInit maxFold pairStepMax
        pairStepMax_boundary pairStepMax_fold rest k0 _ hk0 hall'
    have hkeys : (ex3runP ((k0, v0) :: rest)).map Prod.fst =
        runKeys (((k0, v0) :: rest).map Prod.fst) := by
      rw [hA, specAggGo_keys]
      dsimp only [List.map_cons]
    refine ⟨hkeys, ?_, ?_, ?_⟩
    · rw [hkeys]; exact runKeys_nodup _ hs
    · intro q; rw [hkeys, runKeys_mem]
    · intro q a hmem
      rw [hA] at hmem
      rcases specAggGo_values maxInit maxFold rest k0 (-1) [v0] hs q a hmem with
        ⟨hq, ha⟩ | ⟨hq, w, ws, hm, ha⟩
      · subst hq
        simp only [List.map_cons, List.head?_cons]
        rw [if_pos trivial]
        rw [measuresOf_cons, if_pos rfl]
        rw [combineMax, ha]
        simp
      · simp only [List.map_cons, List.head?_cons]
        rw [if_neg (fun hh => hq (Option.some.inj hh).symm)]
        rw [measuresOf_cons, if_neg (fun hh => hq hh.symm), hm, combineMax, ha]

/-! ## Helper lemmas for the error-handling and grand-total claims -/

theorem ex6lstep_skip {l : Line} (h : ¬ pairShaped l) (t : ℚ) :
    ex6lstep t l = .ok (t, []) := by
  unfold pairShaped at h
  unfold ex6lstep
  rcases hsp : splitTab (pyStrip l) with _ | ⟨a, _ | ⟨b, _ | tl⟩⟩
  · rfl
  · rfl
  · rw [hsp] at h; simp at h
  · rfl

theorem ex6lstep_two {l : Line} {k s : List Char} (h2 : splitTab (pyStrip l) = [k, s])
    {v : ℚ} (hv : parseFloat s = some v) (t : ℚ) :
    ex6lstep t l = .ok (t + v, []) := by
  unfold ex6lstep
  rw [h2]
  dsimp only
  rw [hv]

theorem ex6lstep_two_err {l : Line} {k s : List Char} (h2 : splitTab (pyStrip l) = [k, s])
    (hv : parseFloat s = none) (t : ℚ) :
    ex6lstep t l = .error () := by
  unfold ex6lstep
  rw [h2]
  dsimp only
  rw [hv]

theorem lineMeasure_two {l : Line} {k s : List Char} (h2 : splitTab (pyStrip l) = [k, s]) :
    lineMeasure l = parseFloat s := by
  unfold lineMeasure
  rw [h2]

theorem lineMeasure_skip {l : Line} (h : ¬ pairShaped l) : lineMeasure l = none := by
  unfold pairShaped at h
  unfold lineMeasure
  rcases hsp : splitTab (pyStrip l) with _ | ⟨a, _ | ⟨b, _ | tl⟩⟩
  · rfl
  · rfl
  · rw [hsp] at h; simp at h
  · rfl

theorem specTotal_cons (l : Line) (ls : List Line) :
    specTotal (l :: ls) =
      match lineMeasure l with
      | some v => v + specTotal ls
      | none => specTotal ls := by
  unfold specTotal
  rw [List.filterMap_cons]
  cases lineMeasure l with
  | none => rfl
  | some v => simp [List.sum_cons]

/-- The grand-total loop adds the measures of all two-field lines, provided
every two-field line's measure parses. -/
theorem ex6loop_total :
    ∀ (lines : List Line) (t : ℚ),
      (∀ l ∈ lines, pairShaped l → lineMeasure l ≠ none) →
      loopE ex6lstep t lines = .ok (t + specTotal lines, []) := by
  intro lines
  induction lines with
  | nil =>
    intro t _
    rw [loopE_nil]
    simp [specTotal]
  | cons l ls ih =>
    intro t h
    have hls : ∀ l' ∈ ls, pairShaped l' → lineMeasure l' ≠ none :=
      fun l' hm => h l' (List.mem_cons_of_mem _ hm)
    rw [loopE_cons]
    rcases hsp : splitTab (pyStrip l) with _ | ⟨a, _ | ⟨b, _ | tl⟩⟩
    · have hnp : ¬ pairShaped l := by unfold pairShaped; rw [hsp]; simp
      rw [ex6lstep_skip hnp t]
      dsimp only
      rw [ih t hls, specTotal_cons, lineMeasure_skip hnp]
      rfl
    · have hnp : ¬ pairShaped l := by unfold pairShaped; rw [hsp]; simp
      rw [ex6lstep_skip hnp t]
      dsimp only
      rw [ih t hls, specTotal_cons, lineMeasure_skip hnp]
      rfl
    · cases hv : parseFloat b with
      | none =>
        exfalso
        refine h l (List.mem_cons_self _ _) (pairShaped_of_two hsp) ?_
        rw [lineMeasure_two hsp, hv]
      | some v =>
        rw [ex6lstep_two hsp hv t]
        dsimp only
        rw [ih (t + v) hls, specTotal_cons, lineMeasure_two hsp, hv]
        dsimp only
        rw [add_assoc]
        rfl
    · have hnp : ¬ pairShaped l := by unfold pairShaped; rw [hsp]; simp
      rw [ex6lstep_skip hnp t]
      dsimp only
      rw [ih t hls, specTotal_cons, lineMeasure_skip hnp]
      rfl

/-- A two-field pair line with an empty key is a line starting with the tab
delimiter; stripping removes that tab, so the line fails the two-field test. -/
theorem emptyKey_not_pairShaped {s : List Char} (h : '\t' ∉ s) :
    ¬ pairShaped ('\t' :: s) := by
  unfold pairShaped
  have h1 : pyStrip ('\t' :: s) = pyStrip s := by
    unfold pyStrip
    rw [List.dropWhile_cons]
    simp [pyWS]
  rw [h1]
  have h2 : '\t' ∉ pyStrip s := fun hm => h (pyStrip_mem hm)
  rw [splitTab_no_tab _ h2]
  simp

theorem truthy_iff_of_inv {st1 : Option Key}
    (h : st1 = none ∨ ∃ k, st1 = some k ∧ k ≠ []) :
    (pyTruthy st1 = true ↔ st1 ≠ none) := by
  rcases h with h | ⟨k, hk, hne⟩
  · subst h; simp [pyTruthy]
  · subst hk; simp [pyTruthy, hne]

theorem flushSt_of_some {α : Type} {st : Option Key × α} (h : st.1 ≠ none) :
    flushSt st = [(st.1.getD [], st.2)] := by
  unfold flushSt
  cases hst : st.1 with
  | none => exact absurd hst h
  | some k => rfl

/-- A line failing the two-field test is skipped by all four reducers: the
run on any stream containing it equals the run with the line removed. -/
theorem skip_line_runs (l : Line) (h : ¬ pairShaped l) (pre post : List Line) :
    ex3run (pre ++ l :: post) = ex3run (pre ++ post) ∧
    ex4run (pre ++ l :: post) = ex4run (pre ++ post) ∧
    ex5run (pre ++ l :: post) = ex5run (pre ++ post) ∧
    ex6run (pre ++ l :: post) = ex6run (pre ++ post) := by
  refine ⟨?_, ?_, ?_, ?_⟩
  · unfold ex3run runEflush
    rw [loopE_skip_middle ex3lstep l
      (fun st => mkLstep_skip parseFloat pairStepMax l h st) pre _ post]
  · unfold ex4run runEflush
    rw [loopE_skip_middle ex4lstep l
      (fun st => mkLstep_skip parseInt pairStepCount l h st) pre _ post]
  · unfold ex5run runEflush
    rw [loopE_skip_middle ex5lstep l
      (fun st => mkLstep_skip parseFloat pairStepSum l h st) pre _ post]
  · unfold ex6run
    rw [loopE_skip_middle ex6lstep l (fun t => ex6lstep_skip h t) pre _ post]

/-! ## Claims -/

/-- C1 (counterexample): on the key-sorted well-formed single-pair stream
`[("a", -5)]` the max-per-key reducer emits the value `-1` (its initial
sentinel), while the spec's combine function folded over the measures bearing
key `"a"` yields `-5`, refuting the claimed invariant. -/
theorem C1_counterexample :
    (cl "a", (-1 : ℚ)) ∈ ex3runP [(cl "a", (-5 : ℚ))] ∧
    combineMax (measuresOf (cl "a") [(cl "a", (-5 : ℚ))]) ≠ some (-1) := by
  constructor
  · with_unfolding_all decide
  · with_unfolding_all decide

/-- C1 (amended): on every key-sorted stream of well-formed pairs, each
grouped reducer emits exactly one Result per distinct key in stream order
(its key column is the nodup run-key list), and each Result's value is the
variant's combine function folded over exactly the measures bearing that key
— except that the max-per-key variant folds its initial sentinel `-1` into
the first group, so the first Result's value is the fold over `-1` plus that
group's measures. -/
theorem C1_grouped_invariant_amended :
    (∀ ps : List (Key × ℤ),
      List.Pairwise keyLe (ps.map Prod.fst) → (∀ p ∈ ps, p.1 ≠ ([] : Key)) →
      ((ex4runP ps).map Prod.fst = runKeys (ps.map Prod.fst) ∧
       ((ex4runP ps).map Prod.fst).Nodup ∧
       (∀ q, q ∈ (ex4runP ps).map Prod.fst ↔ q ∈ ps.map Prod.fst) ∧
       ∀ q a, (q, a) ∈ ex4runP ps → combineCount (measuresOf q ps) = some a)) ∧
    (∀ ps : List (Key × ℚ),
      List.Pairwise keyLe (ps.map Prod.fst) → (∀ p ∈ ps, p.1 ≠ ([] : Key)) →
      ((ex5runP ps).map Prod.fst = runKeys (ps.map Prod.fst) ∧
       ((ex5runP ps).map Prod.fst).Nodup ∧
       (∀ q, q ∈ (ex5runP ps).map Prod.fst ↔ q ∈ ps.map Prod.fst) ∧
       ∀ q a, (q, a) ∈ ex5runP ps → combineSum (measuresOf q ps) = some a)) ∧
    (∀ ps : List (Key × ℚ),
      List.Pairwise keyLe (ps.map Prod.fst) → (∀ p ∈ ps, p.1 ≠ ([] : Key)) →
      ((ex3runP ps).map Prod.fst = runKeys (ps.map Prod.fst) ∧
       ((ex3runP ps).map Prod.fst).Nodup ∧
       (∀ q, q ∈ (ex3runP ps).map Prod.fst ↔ q ∈ ps.map Prod.fst) ∧
       ∀ q a, (q, a) ∈ ex3runP ps →
         if (ps.map Prod.fst).head? = some q then
           combineMax ((-1) :: measuresOf q ps) = some a
         else
           combineMax (measuresOf q ps) = some a)) :=
  ⟨ex4_characterization, ex5_characterization, ex3_characterization⟩

/-- C1 (witness): the count-per-key reducer on `[("a",2),("a",3),("b",1)]`
emits for key `"a"` the value `5`, the combine fold of `"a"`'s measures. -/
theorem C1_witness :
    combineCount (measuresOf (cl "a") [(cl "a", (2 : ℤ)), (cl "a", 3), (cl "b", 1)]) =
      some 5 :=
  (C1_grouped_invariant_amended.1 [(cl "a", (2 : ℤ)), (cl "a", 3), (cl "b", 1)]
    (by decide) (by decide)).2.2.2 (cl "a") 5 (by with_unfolding_all decide)

/-- C2 (counterexample): the single-pair stream `[("k", -5)]` does not yield
the Result `("k", -5)` — the max-per-key reducer folds the first measure
into its initial `-1` instead of initializing from it. -/
theorem C2_counterexample :
    ex3runP [(cl "k", (-5 : ℚ))] ≠ [(cl "k", (-5 : ℚ))] := by
  with_unfolding_all decide

/-- C2 (amended): processing the first pair while `oldKey = None` *folds* the
measure into the initial accumulator `-1`, so the single-pair stream
`[(k, v)]` yields `(k, v)` when `v > -1` and `(k, -1)` otherwise; the claimed
Result `(k, v)` is obtained exactly when `v ≥ -1`. -/
theorem C2_first_pair_amended (k : Key) (v : ℚ) :
    ex3runP [(k, v)] = [(k, if v > -1 then v else -1)] := by
  unfold ex3runP
  rw [runPflush_cons, runPflush_nil]
  rfl

/-- C3 (counterexample): on the empty stream the grand-total reducer emits
the key `"TOTAL_ABSOLUTO"`, not the claimed sentinel `"TOTAL"`. -/
theorem C3_counterexample :
    ex6run [] = .ok [(cl "TOTAL_ABSOLUTO", (0 : ℚ))] ∧ cl "TOTAL_ABSOLUTO" ≠ cl "TOTAL" := by
  constructor
  · with_unfolding_all rfl
  · decide

/-- C3 (amended): on every input stream whose two-field lines carry parseable
measures, the grand-total reducer emits exactly one Result, keyed by the
sentinel `"TOTAL_ABSOLUTO"`, whose value is the sum of the measures of all
well-formed pairs regardless of their keys; on the empty stream the value is
`0`. -/
theorem C3_grand_total_amended (lines : List Line)
    (h : ∀ l ∈ lines, pairShaped l → lineMeasure l ≠ none) :
    ex6run lines = .ok [(cl "TOTAL_ABSOLUTO", specTotal lines)] := by
  unfold ex6run
  rw [ex6loop_total lines 0 h]
  simp [Except.map, zero_add]

/-- C3 (witness): the spec's example `[("h1",10),("h2",20),("h3",5)]` yields
the single Result `("TOTAL_ABSOLUTO", 35)`. -/
theorem C3_witness :
    ex6run [cl "h1\t10", cl "h2\t20", cl "h3\t5"] =
      .ok [(cl "TOTAL_ABSOLUTO", (35 : ℚ))] := by
  have h := C3_grand_total_amended [cl "h1\t10", cl "h2\t20", cl "h3\t5"]
    (by with_unfolding_all decide)
  rw [h]
  with_unfolding_all decide

/-- C4 (code bug): a 5-field record whose timestamp contains no space makes
`datetime.split(" ")[1]` raise an `IndexError`, which `except ValueError`
does not catch: the time-bucket extractor aborts instead of silently
discarding the record. -/
theorem C4_mapper_aborts_on_spaceless_timestamp :
    ex5mapRun [cl "d\ts\ti\t5\tc"] = .error () := by
  with_unfolding_all rfl

/-- C5 (confirmed): the sum-per-key reducer — which resets its accumulator to
0 at a boundary and then unconditionally adds — computes exactly the spec's
aggregator with `Initializer(v) = v`, `Fold(acc,v) = acc + v` on every
key-sorted stream of well-formed pairs, so the flagged inconsistency is not
observable in output. -/
theorem C5_sum_reset_equiv_spec (ps : List (Key × ℚ))
    (hs : List.Pairwise keyLe (ps.map Prod.fst))
    (hk : ∀ p ∈ ps, p.1 ≠ ([] : Key)) :
    ex5runP ps = specAgg sumInit sumFold ps := by
  cases ps with
  | nil => rfl
  | cons p rest =>
    obtain ⟨k, v⟩ := p
    rw [ex5runP_cons]
    exact runPflush_eq_specAggGo sumInit sumFold pairStepSum pairStepSum_boundary
      pairStepSum_fold rest k (sumInit v) (hk (k, v) (List.mem_cons_self _ _))
      (fun p hm => hk p (List.mem_cons_of_mem _ hm))

/-- C5 (witness): both formulations agree on `[("x",1),("x",2),("z",4)]`. -/
theorem C5_witness :
    ex5runP [(cl "x", (1 : ℚ)), (cl "x", 2), (cl "z", 4)] =
      specAgg sumInit sumFold [(cl "x", (1 : ℚ)), (cl "x", 2), (cl "z", 4)] :=
  C5_sum_reset_equiv_spec _ (by decide) (by decide)

/-- C6 (confirmed): a two-field incoming pair whose measure does not parse in
the variant's numeric domain (`float` for max and sum, `int` for count) makes
the whole reducer run abort with an uncaught error, rather than being skipped
or folded. -/
theorem C6_parse_failure_aborts :
    (∀ lines : List Line,
      (∃ l ∈ lines, ∃ k s, splitTab (pyStrip l) = [k, s] ∧ parseFloat s = none) →
      ex3run lines = .error ()) ∧
    (∀ lines : List Line,
      (∃ l ∈ lines, ∃ k s, splitTab (pyStrip l) = [k, s] ∧ parseInt s = none) →
      ex4run lines = .error ()) ∧
    (∀ lines : List Line,
      (∃ l ∈ lines, ∃ k s, splitTab (pyStrip l) = [k, s] ∧ parseFloat s = none) →
      ex5run lines = .error ()) := by
  refine ⟨?_, ?_, ?_⟩
  · rintro lines ⟨l, hm, k, s, h2, hp⟩
    exact runEflush_error ex3lstep _ lines
      (loopE_error_of_mem ex3lstep l
        (fun st => mkLstep_error parseFloat pairStepMax h2 hp st) lines _ hm)
  · rintro lines ⟨l, hm, k, s, h2, hp⟩
    exact runEflush_error ex4lstep _ lines
      (loopE_error_of_mem ex4lstep l
        (fun st => mkLstep_error parseInt pairStepCount h2 hp st) lines _ hm)
  · rintro lines ⟨l, hm, k, s, h2, hp⟩
    exact runEflush_error ex5lstep _ lines
      (loopE_error_of_mem ex5lstep l
        (fun st => mkLstep_error parseFloat pairStepSum h2 hp st) lines _ hm)

/-- C6 (witness): `"a\tabc"` aborts the float reducers and `"a\t1.0"` aborts
the int reducer. -/
theorem C6_witness :
    ex3run [cl "a\tabc"] = .error () ∧ ex4run [cl "a\t1.0"] = .error () ∧
      ex5run [cl "a\tabc"] = .error () :=
  ⟨C6_parse_failure_aborts.1 [cl "a\tabc"]
      ⟨cl "a\tabc", by decide, cl "a", cl "abc", by decide, by with_unfolding_all decide⟩,
   C6_parse_failure_aborts.2.1 [cl "a\t1.0"]
      ⟨cl "a\t1.0", by decide, cl "a", cl "1.0", by decide, by with_unfolding_all decide⟩,
   C6_parse_failure_aborts.2.2 [cl "a\tabc"]
      ⟨cl "a\tabc", by decide, cl "a", cl "abc", by decide, by with_unfolding_all decide⟩⟩

/-- C7 (confirmed): at every reducer, a line that does not split into exactly
two tab-separated fields is silently discarded with no state change and no
output: each step leaves the state untouched, and the whole run equals the
run on the same stream with that line absent. -/
theorem C7_malformed_pair_discarded (pre post : List Line) (l : Line)
    (h : ¬ pairShaped l) :
    (∀ st, ex3lstep st l = .ok (st, [])) ∧
    (∀ st, ex4lstep st l = .ok (st, [])) ∧
    (∀ st, ex5lstep st l = .ok (st, [])) ∧
    (∀ t, ex6lstep t l = .ok (t, [])) ∧
    ex3run (pre ++ l :: post) = ex3run (pre ++ post) ∧
    ex4run (pre ++ l :: post) = ex4run (pre ++ post) ∧
    ex5run (pre ++ l :: post) = ex5run (pre ++ post) ∧
    ex6run (pre ++ l :: post) = ex6run (pre ++ post) := by
  obtain ⟨h3, h4, h5, h6⟩ := skip_line_runs l h pre post
  exact ⟨fun st => mkLstep_skip parseFloat pairStepMax l h st,
    fun st => mkLstep_skip parseInt pairStepCount l h st,
    fun st => mkLstep_skip parseFloat pairStepSum l h st,
    fun t => ex6lstep_skip h t, h3, h4, h5, h6⟩

/-- C7 (witness): removing the malformed middle line `"junk"` leaves every
reducer's output unchanged. -/
theorem C7_witness :
    ex3run ([cl "x\t1"] ++ cl "junk" :: [cl "x\t2"]) = ex3run ([cl "x\t1"] ++ [cl "x\t2"]) ∧
    ex4run ([cl "x\t1"] ++ cl "junk" :: [cl "x\t2"]) = ex4run ([cl "x\t1"] ++ [cl "x\t2"]) ∧
    ex5run ([cl "x\t1"] ++ cl "junk" :: [cl "x\t2"]) = ex5run ([cl "x\t1"] ++ [cl "x\t2"]) ∧
    ex6run ([cl "x\t1"] ++ cl "junk" :: [cl "x\t2"]) = ex6run ([cl "x\t1"] ++ [cl "x\t2"]) := by
  obtain ⟨-, -, -, -, h3, h4, h5, h6⟩ :=
    C7_malformed_pair_discarded [cl "x\t1"] [cl "x\t2"] (cl "junk") (by decide)
  exact ⟨h3, h4, h5, h6⟩

/-- C8 (confirmed): for every grouped reducer, at end of stream: if at least
one two-field pair was consumed (the final `oldKey` is non-`None`), the run
appends exactly one final Result — the open group's `(oldKey, accumulator)` —
to the loop's output; if no two-field pair was consumed (in particular on the
empty stream), the state never changed and the run emits nothing. -/
theorem C8_final_flush :
    (∀ (lines : List Line) (r : (Option Key × ℚ) × List (Key × ℚ)),
      loopE ex3lstep ((none : Option Key), (-1 : ℚ)) lines = .ok r →
      ((∃ l ∈ lines, pairShaped l) →
        r.1.1 ≠ none ∧ ex3run lines = .ok (r.2 ++ [(r.1.1.getD [], r.1.2)])) ∧
      ((∀ l ∈ lines, ¬ pairShaped l) →
        r = (((none : Option Key), (-1 : ℚ)), []) ∧ ex3run lines = .ok [])) ∧
    (∀ (lines : List Line) (r : (Option Key × ℤ) × List (Key × ℤ)),
      loopE ex4lstep ((none : Option Key), (0 : ℤ)) lines = .ok r →
      ((∃ l ∈ lines, pairShaped l) →
        r.1.1 ≠ none ∧ ex4run lines = .ok (r.2 ++ [(r.1.1.getD [], r.1.2)])) ∧
      ((∀ l ∈ lines, ¬ pairShaped l) →
        r = (((none : Option Key), (0 : ℤ)), []) ∧ ex4run lines = .ok [])) ∧
    (∀ (lines : List Line) (r : (Option Key × ℚ) × List (Key × ℚ)),
      loopE ex5lstep ((none : Option Key), (0 : ℚ)) lines = .ok r →
      ((∃ l ∈ lines, pairShaped l) →
        r.1.1 ≠ none ∧ ex5run lines = .ok (r.2 ++ [(r.1.1.getD [], r.1.2)])) ∧
      ((∀ l ∈ lines, ¬ pairShaped l) →
        r = (((none : Option Key), (0 : ℚ)), []) ∧ ex5run lines = .ok [])) := by
  refine ⟨?_, ?_, ?_⟩
  all_goals intro lines r h
  · constructor
    · intro hex
      have hsome : r.1.1 ≠ none :=
        loopE_some_of_pair parseFloat pairStepMax pairStepMax_key lines _ r h (Or.inl hex)
      refine ⟨hsome, ?_⟩
      have hrun := runEflush_ok ex3lstep _ lines r h
      rwa [flushSt_of_some hsome] at hrun
    · intro hall
      have h2 := loopE_all_skip ex3lstep lines ((none : Option Key), (-1 : ℚ))
        (fun l hm st => mkLstep_skip parseFloat pairStepMax l (hall l hm) st)
      rw [h] at h2
      have hr : r = (((none : Option Key), (-1 : ℚ)), []) := Except.ok.inj h2
      refine ⟨hr, ?_⟩
      have hrun := runEflush_ok ex3lstep _ lines r h
      rw [hr] at hrun
      simpa [flushSt] using hrun
  · constructor
    · intro hex
      have hsome : r.1.1 ≠ none :=
        loopE_some_of_pair parseInt pairStepCount pairStepCount_key lines _ r h (Or.inl hex)
      refine ⟨hsome, ?_⟩
      have hrun := runEflush_ok ex4lstep _ lines r h
      rwa [flushSt_of_some hsome] at hrun
    · intro hall
      have h2 := loopE_all_skip ex4lstep lines ((none : Option Key), (0 : ℤ))
        (fun l hm st => mkLstep_skip parseInt pairStepCount l (hall l hm) st)
      rw [h] at h2
      have hr : r = (((none : Option Key), (0 : ℤ)), []) := Except.ok.inj h2
      refine ⟨hr, ?_⟩
      have hrun := runEflush_ok ex4lstep _ lines r h
      rw [hr] at hrun
      simpa [flushSt] using hrun
  · constructor
    · intro hex
      have hsome : r.1.1 ≠ none :=
        loopE_some_of_pair parseFloat pairStepSum pairStepSum_key lines _ r h (Or.inl hex)
      refine ⟨hsome, ?_⟩
      have hrun := runEflush_ok ex5lstep _ lines r h
      rwa [flushSt_of_some hsome] at hrun
    · intro hall
      have h2 := loopE_all_skip ex5lstep lines ((none : Option Key), (0 : ℚ))
        (fun l hm st => mkLstep_skip parseFloat pairStepSum l (hall l hm) st)
      rw [h] at h2
      have hr : r = (((none : Option Key), (0 : ℚ)), []) := Except.ok.inj h2
      refine ⟨hr, ?_⟩
      have hrun := runEflush_ok ex5lstep _ lines r h
      rw [hr] at hrun
      simpa [flushSt] using hrun

/-- C8 (witness): on `["a\t1"]` the max reducer flushes the single open group
`("a", 1)`; on the empty stream the sum reducer emits nothing. -/
theorem C8_witness :
    ex3run [cl "a\t1"] = .ok [(cl "a", (1 : ℚ))] ∧ ex5run [] = .ok [] := by
  constructor
  · have h := ((C8_final_flush.1 [cl "a\t1"] ((some (cl "a"), (1 : ℚ)), [])
      (by with_unfolding_all rfl)).1 ⟨cl "a\t1", by decide, by decide⟩).2
    simpa using h
  · have h := ((C8_final_flush.2.2 [] (((none : Option Key), (0 : ℚ)), [])
      (by with_unfolding_all rfl)).2 (by simp)).2
    exact h

/-- C9 (confirmed): every reducer script is deterministic — its output is a
function of the input lines alone, and any process-wide state left by an
earlier run is overwritten by the script's initial assignments, so two runs
on the same stream produce identical output. -/
theorem C9_deterministic (g1 g2 : Option Key × ℚ) (g3 g4 : Option Key × ℤ)
    (g5 g6 : Option Key × ℚ) (g7 g8 : ℚ) (lines : List Line) :
    ex3script g1 lines = ex3script g2 lines ∧
    ex4script g3 lines = ex4script g4 lines ∧
    ex5script g5 lines = ex5script g6 lines ∧
    ex6script g7 lines = ex6script g8 lines :=
  ⟨rfl, rfl, rfl, rfl⟩

/-- C10 (confirmed): a pair line with an empty key — a line that starts with
the tab delimiter and has no further tab — is silently discarded by every
reducer (the strip removes the leading tab, leaving one field), and on every
reachable loop state the truthiness test `if oldKey` coincides with
`oldKey != None` for all three grouped reducers. -/
theorem C10_empty_key_discarded_truthiness :
    (∀ s : List Char, '\t' ∉ s → ∀ pre post : List Line,
      ex3run (pre ++ ('\t' :: s) :: post) = ex3run (pre ++ post) ∧
      ex4run (pre ++ ('\t' :: s) :: post) = ex4run (pre ++ post) ∧
      ex5run (pre ++ ('\t' :: s) :: post) = ex5run (pre ++ post) ∧
      ex6run (pre ++ ('\t' :: s) :: post) = ex6run (pre ++ post)) ∧
    (∀ (lines : List Line) (r : (Option Key × ℚ) × List (Key × ℚ)),
      loopE ex3lstep ((none : Option Key), (-1 : ℚ)) lines = .ok r →
      (pyTruthy r.1.1 = true ↔ r.1.1 ≠ none)) ∧
    (∀ (lines : List Line) (r : (Option Key × ℤ) × List (Key × ℤ)),
      loopE ex4lstep ((none : Option Key), (0 : ℤ)) lines = .ok r →
      (pyTruthy r.1.1 = true ↔ r.1.1 ≠ none)) ∧
    (∀ (lines : List Line) (r : (Option Key × ℚ) × List (Key × ℚ)),
      loopE ex5lstep ((none : Option Key), (0 : ℚ)) lines = .ok r →
      (pyTruthy r.1.1 = true ↔ r.1.1 ≠ none)) := by
  refine ⟨?_, ?_, ?_, ?_⟩
  · intro s hs pre post
    exact skip_line_runs ('\t' :: s) (emptyKey_not_pairShaped hs) pre post
  · intro lines r h
    exact truthy_iff_of_inv
      (loopE_key_inv parseFloat pairStepMax pairStepMax_key lines _ r (Or.inl rfl) h)
  · intro lines r h
    exact truthy_iff_of_inv
      (loopE_key_inv parseInt pairStepCount pairStepCount_key lines _ r (Or.inl rfl) h)
  · intro lines r h
    exact truthy_iff_of_inv
      (loopE_key_inv parseFloat pairStepSum pairStepSum_key lines _ r (Or.inl rfl) h)

/-- C10 (witness): the empty-key pair line `"\t5"` is dropped by the max
reducer, and after consuming `"a\t1"` the stored key is truthy iff non-None. -/
theorem C10_witness :
    ex3run ([] ++ ('\t' :: cl "5") :: []) = ex3run ([] ++ []) ∧
    (pyTruthy (some (cl "a")) = true ↔ (some (cl "a") : Option Key) ≠ none) := by
  constructor
  · exact ((C10_empty_key_discarded_truthiness.1 (cl "5") (by decide) [] [])).1
  · have h := C10_empty_key_discarded_truthiness.2.1 [cl "a\t1"]
      ((some (cl "a"), (1 : ℚ)), []) (by with_unfolding_all rfl)
    exact h
